import Mathlib

/-!
Verification of the Yaco configuration library (`src/Yaco/__init__.py`).

The development shallowly embeds the two core classes:

* `Yaco` — a `dict` subclass whose values are scalars, nested `Yaco`
  objects or lists, with auto-vivification on reads of absent keys and
  deep-merge operations `update` / `soft_update`, plus the private-key
  filtering export `get_data`.
* `PolyYaco` — a layered configuration: an ordered stack of `Yaco`
  layers with a lazily recomputed merged view guarded by a dirty flag.

Python dictionaries are modelled as insertion-ordered association
lists; mutation of an object reachable by reference is modelled by
explicit state passing (every operation that can mutate returns the
new state of the object it ran on).  Exceptions are modelled with
`Option` / `Except`.
-/

namespace YacoSpec

/-- A Python runtime value as far as Yaco is concerned: scalars
(int/str/bool), a `Yaco` instance (`vnode`), a plain non-`Yaco` `dict`
(`vdict`) and a `list`.  The `vnode` / `vdict` split mirrors the
`isinstance(x, Yaco)` vs `isinstance(x, dict)` dispatch in the source
(every `Yaco` is a `dict`, not conversely). -/
inductive Val where
  | vint  : Int → Val
  | vstr  : String → Val
  | vbool : Bool → Val
  | vnode : List (String × Val) → Val
  | vdict : List (String × Val) → Val
  | vlist : List Val → Val

/-- The contents of a `Yaco` object (or of a plain dict): an
insertion-ordered association list, as a Python dict iterates. -/
abbrev Yaco := List (String × Val)

/-- `d[k]` read on a dict without `__getitem__` overloading
(`super(Yaco, self).get(key, None)` in the source): first entry with
key `k`, if any. -/
def lookupKey (k : String) : Yaco → Option Val
  | [] => none
  | (k1, v1) :: rest => if k1 = k then some v1 else lookupKey k rest

/-- `d[k] = v` on a dict (`super(Yaco, self).__setitem__`): replaces the
value in place if `k` is present (a Python dict keeps the key's
insertion position), else appends a new entry. -/
def setEntry (k : String) (v : Val) : Yaco → Yaco
  | [] => [(k, v)]
  | (k1, v1) :: rest => if k1 = k then (k, v) :: rest else (k1, v1) :: setEntry k v rest

/-- `k in d` on a dict (`dict.__contains__`, not overridden by Yaco). -/
def containsKey (k : String) (self : Yaco) : Bool :=
  (lookupKey k self).isSome

/-- Python truthiness of a value: `0`, `""`, `False`, empty dicts and
empty lists are falsy, everything else is truthy. -/
def Val.truthy : Val → Bool
  | .vint i => i != 0
  | .vstr s => s != ""
  | .vbool b => b
  | .vnode n => !n.isEmpty
  | .vdict n => !n.isEmpty
  | .vlist l => !l.isEmpty

mutual

/-- `Yaco.update(self, data)` (source lines 307–335): iterate the items
of `data` in order, mutating `self` one key at a time.  The
`if not data: return` guard coincides with the empty loop. -/
def Yaco.update : Yaco → Yaco → Yaco
  | self, [] => self
  | self, (k, v) :: rest => Yaco.update (Yaco.updateOne self k v) rest
termination_by _ data => (sizeOf data, 0)

/-- One iteration of the `Yaco.update` loop body: `old_value =
super().get(key, None)`; a dict value deep-merges into a truthy `Yaco`
old value (`old_value.update(value)`, mutation in place) and otherwise
replaces with `Yaco(value)`; a list is `_list_parser`d and replaces;
any other value replaces. -/
def Yaco.updateOne (self : Yaco) (k : String) (v : Val) : Yaco :=
  match v with
  | .vnode d | .vdict d =>
    match lookupKey k self with
    | some (.vnode []) => setEntry k (.vnode (Yaco.init d)) self
    | some (.vnode o) => setEntry k (.vnode (Yaco.update o d)) self
    | _ => setEntry k (.vnode (Yaco.init d)) self
  | .vlist l => setEntry k (.vlist (Yaco.parseList l)) self
  | _ => setEntry k v self
termination_by (sizeOf v, 1)

/-- `Yaco.soft_update(self, data)` (source lines 264–305): as `update`
but only filling keys whose current value is absent or falsy. -/
def Yaco.soft_update : Yaco → Yaco → Yaco
  | self, [] => self
  | self, (k, v) :: rest => Yaco.soft_update (Yaco.softUpdateOne self k v) rest
termination_by _ data => (sizeOf data, 0)

/-- One iteration of the `Yaco.soft_update` loop body.  For a dict
value: a truthy `Yaco` old value is recursively `soft_update`d in place
(and, still truthy afterwards since `soft_update` never removes
entries, kept by the following `if old_value: continue`); any other
truthy old value is kept; a falsy or absent old value is overwritten
with `Yaco(value)`.  Lists and scalars are written only if the old
value is falsy or absent. -/
def Yaco.softUpdateOne (self : Yaco) (k : String) (v : Val) : Yaco :=
  match v with
  | .vnode d | .vdict d =>
    match lookupKey k self with
    | some (.vnode (e :: es)) => setEntry k (.vnode (Yaco.soft_update (e :: es) d)) self
    | some old => if old.truthy then self else setEntry k (.vnode (Yaco.init d)) self
    | none => setEntry k (.vnode (Yaco.init d)) self
  | .vlist l =>
    match lookupKey k self with
    | some old => if old.truthy then self else setEntry k (.vlist (Yaco.parseList l)) self
    | none => setEntry k (.vlist (Yaco.parseList l)) self
  | _ =>
    match lookupKey k self with
    | some old => if old.truthy then self else setEntry k v self
    | none => setEntry k v self
termination_by (sizeOf v, 1)

/-- `Yaco(data)` for a dict argument (`Yaco.__init__`, lines 99–114):
a fresh empty dict updated with `data`. -/
def Yaco.init (d : List (String × Val)) : Yaco :=
  Yaco.update [] d
termination_by (sizeOf d, 2)

/-- `Yaco._list_parser(self, old_list)` (lines 250–261): recursively
replace all dicts inside a list by `Yaco` objects. -/
def Yaco.parseList : List Val → List Val
  | [] => []
  | x :: xs => Yaco.parseItem x :: Yaco.parseList xs
termination_by l => (sizeOf l, 0)

/-- One element of `_list_parser`: dicts become `Yaco(item)`, lists
recurse, anything else is kept. -/
def Yaco.parseItem : Val → Val
  | .vnode d => .vnode (Yaco.init d)
  | .vdict d => .vnode (Yaco.init d)
  | .vlist l => .vlist (Yaco.parseList l)
  | v => v
termination_by v => (sizeOf v, 1)

end

/-- `Yaco.__setattr__(self, key, value)` (lines 125–175): a dict value
merges into an existing `Yaco` old value via `update` (regardless of
truthiness — note the difference with `update`'s own truthy guard); a
`Yaco` value with no `Yaco` old value is stored as-is; a plain dict is
wrapped in `Yaco(value)`; a list is `_list_parser`d; scalars are
stored as-is. -/
def Yaco.setattr (k : String) (v : Val) (self : Yaco) : Yaco :=
  match v with
  | .vnode d =>
    match lookupKey k self with
    | some (.vnode o) => setEntry k (.vnode (Yaco.update o d)) self
    | _ => setEntry k (.vnode d) self
  | .vdict d =>
    match lookupKey k self with
    | some (.vnode o) => setEntry k (.vnode (Yaco.update o d)) self
    | _ => setEntry k (.vnode (Yaco.init d)) self
  | .vlist l => setEntry k (.vlist (Yaco.parseList l)) self
  | _ => setEntry k v self

/-- `Yaco.__getattr__(self, key)` (lines 180–192): return the stored
value; on `KeyError` store and return a fresh empty `Yaco`
(auto-vivification).  The returned pair is (result, state of `self`
after the call). -/
def Yaco.getattr (k : String) (self : Yaco) : Val × Yaco :=
  match lookupKey k self with
  | some v => (v, self)
  | none => (.vnode [], setEntry k (.vnode []) self)

theorem tail_dropWhile_length_lt (k : List Char) (h : k.contains '.' = true) :
    ((k.dropWhile (fun c => c != '.')).tail).length < k.length := by
  induction k with
  | nil => simp at h
  | cons c rest ih =>
    by_cases hc : c = '.'
    · subst hc
      rw [List.dropWhile_cons]
      simp
    · have hr : rest.contains '.' = true := by
        simp only [List.contains_cons, Bool.or_eq_true, beq_iff_eq] at h
        rcases h with h | h
        · exact absurd h.symm hc
        · exact h
      have hlt := ih hr
      rw [List.dropWhile_cons]
      have hb : (c != '.') = true := by simpa using hc
      rw [hb]
      simp only [if_true]
      calc ((rest.dropWhile (fun c => c != '.')).tail).length < rest.length := hlt
        _ < (c :: rest).length := by simp

/-- `Yaco.__getitem__(self, key)` (lines 197–205) on the character list
of the key: a key without `'.'` delegates to `__getattr__`; otherwise
`key.split('.', 1)` and `self.__getattr__(k1)[k2]` — the head segment
is vivified, the remainder is looked up in it (mutating it by
reference, reflected here by re-storing the sub-state), and a
non-`Yaco` intermediate value raises (`none`). -/
def Yaco.getitemChars (k : List Char) (self : Yaco) : Option (Val × Yaco) :=
  if k.contains '.' then
    let k1 := String.mk (k.takeWhile (fun c => c != '.'))
    let k2 := (k.dropWhile (fun c => c != '.')).tail
    let p := Yaco.getattr k1 self
    match p.fst with
    | .vnode sub =>
      match Yaco.getitemChars k2 sub with
      | some (rv, sub1) => some (rv, setEntry k1 (.vnode sub1) p.snd)
      | none => none
    | _ => none
  else some (Yaco.getattr (String.mk k) self)
termination_by k.length
decreasing_by exact tail_dropWhile_length_lt k (by assumption)

/-- `Yaco.__getitem__` on a `String` key. -/
def Yaco.getitem (k : String) (self : Yaco) : Option (Val × Yaco) :=
  Yaco.getitemChars k.toList self

/-- The private-prefix test of `get_data` (line 413):
`isinstance(k, str) and k and k[0] == '_'` — a nonempty key whose
first character is `'_'`. -/
def underscoreKey (k : String) : Bool :=
  match k.toList with
  | [] => false
  | c :: _ => c == '_'

/-- The internal-attribute test of `PolyYaco.__setattr__` /
`__getattr__` (lines 702, 729): `key[:9] == '_PolyYaco'`. -/
def polyInternalKey (k : String) : Bool :=
  decide (k.toList.take 9 = "_PolyYaco".toList)

/-- Python `k in x` as used by `get_data` on the exclusion list
(`if k in _priv`): list membership compares `==` with each element (a
string equals only an equal string), dict membership is key
membership, string membership is substring test.  Membership in a
non-iterable raises in Python; those cases do not arise for an
exclusion list and are mapped to `false`. -/
def memVal (k : String) : Val → Bool
  | .vlist l => l.any (fun x => match x with | .vstr s => s == k | _ => false)
  | .vnode es => es.any (fun e => e.fst == k)
  | .vdict es => es.any (fun e => e.fst == k)
  | .vstr s => decide (List.IsInfix k.toList s.toList)
  | _ => false

mutual

/-- `Yaco.get_data(self)` (lines 381–416): read the exclusion list
`_priv = self.get('_private', [])`, then copy every entry whose key is
neither in `_priv` nor starts with `'_'`, passing the value through
`check_data`.  The per-entry read `self[k]` is modelled by the entry's
own value, which is what `__getitem__` returns for the dot-free keys a
well-formed node has. -/
def Yaco.get_data (self : Yaco) : List (String × Val) :=
  Yaco.getDataEntries ((lookupKey "_private" self).getD (.vlist [])) self
termination_by (sizeOf self, 2)

/-- The `for k in list(self.keys())` loop of `get_data`, with the
exclusion list already fixed (it is read once, before the loop). -/
def Yaco.getDataEntries (priv : Val) : List (String × Val) → List (String × Val)
  | [] => []
  | (k, v) :: rest =>
    if memVal k priv then Yaco.getDataEntries priv rest
    else if underscoreKey k then Yaco.getDataEntries priv rest
    else (k, Yaco.checkData v) :: Yaco.getDataEntries priv rest
termination_by es => (sizeOf es, 0)

/-- `check_data(v)` inside `get_data`: a `Yaco` value is exported with
`get_data` (producing a plain dict), a list is exported element-wise,
anything else (scalars, and a plain dict, which the `isinstance(v,
Yaco)` test does not catch) is returned unchanged. -/
def Yaco.checkData : Val → Val
  | .vnode sub => .vdict (Yaco.get_data sub)
  | .vlist l => .vlist (Yaco.checkDataList l)
  | v => v
termination_by v => (sizeOf v, 1)

/-- `[check_data(x) for x in v]` for a list value. -/
def Yaco.checkDataList : List Val → List Val
  | [] => []
  | x :: xs => Yaco.checkData x :: Yaco.checkDataList xs
termination_by l => (sizeOf l, 0)

end

mutual

/-- Well-formedness of a stored value: the state of any value reachable
inside a live `Yaco` object through its public interface — every map
is a `Yaco` (never a plain dict), keys are unique as in a Python dict,
and no key contains the `'.'` path separator (so `self[k]` is a plain
lookup for every stored key). -/
def wfVal : Val → Bool
  | .vint _ => true
  | .vstr _ => true
  | .vbool _ => true
  | .vdict _ => false
  | .vnode es => wfEntries es
  | .vlist l => wfList l
termination_by v => (sizeOf v, 1)

/-- Well-formedness of the entry list of a `Yaco` object. -/
def wfEntries : List (String × Val) → Bool
  | [] => true
  | (k, v) :: rest =>
    !(k.toList.contains '.') && rest.all (fun e => e.fst != k) && wfVal v && wfEntries rest
termination_by es => (sizeOf es, 0)

/-- Well-formedness of a stored list value. -/
def wfList : List Val → Bool
  | [] => true
  | x :: xs => wfVal x && wfList xs
termination_by l => (sizeOf l, 0)

end

mutual

/-- A fully exported value: no `Yaco` (`vnode`) anywhere — only
scalars, plain dicts and lists — and no key with the private `'_'`
prefix at any depth. -/
def exportedVal : Val → Bool
  | .vint _ => true
  | .vstr _ => true
  | .vbool _ => true
  | .vnode _ => false
  | .vdict es => exportedEntries es
  | .vlist l => exportedList l
termination_by v => (sizeOf v, 1)

/-- `exportedVal` over the entries of a plain dict. -/
def exportedEntries : List (String × Val) → Bool
  | [] => true
  | (k, v) :: rest => !(underscoreKey k) && exportedVal v && exportedEntries rest
termination_by es => (sizeOf es, 0)

/-- `exportedVal` over the elements of a list. -/
def exportedList : List Val → Bool
  | [] => true
  | x :: xs => exportedVal x && exportedList xs
termination_by l => (sizeOf l, 0)

end

/-- The instance state of a `PolyYaco` object (source lines 609–628);
the `_PolyYaco_` prefix of the attribute names is dropped.
`filenames` and `yacs` are the parallel lists of layer locators and
layer `Yaco` objects, lowest precedence first; `merged` is the cached
merged view and `dirty` its invalidation flag. -/
structure PolyYaco where
  filenames : List String
  yacs : List Yaco
  dirty : Bool
  merged : Option Yaco

/-- One raw entry of `PolyYaco._PolyYaco_rawfiles` together with how
the environment resolves it, following the dispatch of
`PolyYaco.load` (lines 643–661): a `pkg://` locator (whose resource
either yields parsed data or raises `IOError`), an existing directory
(`YacoDir`, already folded to its parsed data), an existing file, or a
path that is neither (`continue`).  Parsed YAML data is plain dicts
and lists, converted by the `Yaco` constructor on load. -/
inductive Source where
  | pkg : String → Option (List (String × Val)) → Source
  | dir : String → List (String × Val) → Source
  | file : String → List (String × Val) → Source
  | absent : String → Source

/-- The fatal outcome of `PolyYaco.load`: `YacoPkg.__init__` (lines
553–558) catches the `IOError` of an unresolvable bundled resource and
calls `sys.exit(-1)`, aborting the process. -/
inductive LoadError where
  | pkgExit : LoadError
  deriving DecidableEq

/-- Outcomes of `PolyYaco.save` that raise: the reserved `_base` top
layer (`Exception("Cannot save to 'base' configuration")`, line 676),
or an empty layer stack (`_getTop` returns `(None, None)` and
`None.save` raises `AttributeError`). -/
inductive SaveError where
  | reservedBase : SaveError
  | noTopLayer : SaveError
  deriving DecidableEq

/-- The `for filename in self._PolyYaco_rawfiles` loop of
`PolyYaco.load` (lines 643–664): each resolving source appends its
locator and its loaded `Yaco` to the running lists; a source that is
neither a package locator, a directory nor a file is skipped; an
unresolvable `pkg://` source exits the process. -/
def PolyYaco.loadSources (fns : List String) (ycs : List Yaco) :
    List Source → Except LoadError (List String × List Yaco)
  | [] => .ok (fns, ycs)
  | .pkg _ none :: _ => .error .pkgExit
  | .pkg n (some d) :: rest => PolyYaco.loadSources (fns ++ [n]) (ycs ++ [Yaco.init d]) rest
  | .dir n d :: rest => PolyYaco.loadSources (fns ++ [n]) (ycs ++ [Yaco.init d]) rest
  | .file n d :: rest => PolyYaco.loadSources (fns ++ [n]) (ycs ++ [Yaco.init d]) rest
  | .absent _ :: rest => PolyYaco.loadSources fns ycs rest

/-- `PolyYaco.load(self)` (lines 630–664): reset the stack, mark the
cache dirty and clear it, prepend the reserved `('_base', Yaco(base))`
layer when a base was given, then load the raw sources in order. -/
def PolyYaco.load (base : Option (List (String × Val))) (sources : List Source) :
    Except LoadError PolyYaco :=
  let fns0 : List String := match base with | some _ => ["_base"] | none => []
  let ycs0 : List Yaco := match base with | some b => [Yaco.init b] | none => []
  (PolyYaco.loadSources fns0 ycs0 sources).map
    (fun p => { filenames := p.fst, yacs := p.snd, dirty := true, merged := none })

/-- `PolyYaco.merge(self)` (lines 679–689): when clean, return the
cached merged object (`none` models the `None` cache a clean state
could in principle hold, which callers would crash on); when dirty,
fold all layers low-to-high into a fresh `Yaco` with `update`, cache
it and clear the flag. -/
def PolyYaco.merge (s : PolyYaco) : Option (Yaco × PolyYaco) :=
  if s.dirty then
    let y := s.yacs.foldl Yaco.update []
    some (y, { s with merged := some y, dirty := false })
  else
    s.merged.map (fun m => (m, s))

/-- `PolyYaco.save(self)` (lines 673–677): `_getTop` yields the last
(filename, Yaco) pair; the reserved `_base` name raises; otherwise the
top layer's `Yaco` is serialized (`Yaco.save` writes `get_data`) to
its own locator — modelled as returning the written pair. -/
def PolyYaco.save (s : PolyYaco) : Except SaveError (String × List (String × Val)) :=
  match s.filenames.getLast?, s.yacs.getLast? with
  | some fn, some yc =>
    if fn = "_base" then .error .reservedBase else .ok (fn, Yaco.get_data yc)
  | _, _ => .error .noTopLayer

/-- `PolyYaco.__setattr__(self, key, value)` (lines 700–708): an
internal `_PolyYaco*` name is stored as instance state (not modelled,
`none`); a domain key marks the cache dirty and delegates to
`Yaco.__setattr__` on the top layer — `none` also models the
`AttributeError` of an empty stack. -/
def PolyYaco.setattr (k : String) (v : Val) (s : PolyYaco) : Option PolyYaco :=
  if polyInternalKey k then none
  else
    match s.yacs.getLast? with
    | none => none
    | some top =>
      some { s with dirty := true, yacs := s.yacs.dropLast ++ [Yaco.setattr k v top] }

/-- `PolyYaco.__getattr__(self, key)` (lines 725–736) for a string
key: internal `_PolyYaco*` names read instance state (not modelled);
a domain key reads `self.merge().__getattr__(key)` — the
auto-vivification mutates the cached merged object in place, so the
new merged state is stored back in the cache. -/
def PolyYaco.getattr (k : String) (s : PolyYaco) : Option (Val × PolyYaco) :=
  if polyInternalKey k then none
  else
    match s.merge with
    | none => none
    | some (m, s1) =>
      let p := Yaco.getattr k m
      some (p.fst, { s1 with merged := some p.snd })

/-- `PolyYaco.get(self, key, default)` (lines 710–719): read through
`__getattr__` and return `default` when the result `== {}` (an empty
dict of either class compares equal to `{}`). -/
def PolyYaco.get (k : String) (default : Option Val) (s : PolyYaco) :
    Option (Option Val × PolyYaco) :=
  (PolyYaco.getattr k s).map
    (fun p => match p.fst with
      | .vnode [] => (default, p.snd)
      | .vdict [] => (default, p.snd)
      | v => (some v, p.snd))

/-- `PolyYaco.__contains__(self, key)` (lines 722–723):
`self.merge().__contains__(key)` — plain dict membership on the merged
view, no vivification. -/
def PolyYaco.contains (k : String) (s : PolyYaco) : Option (Bool × PolyYaco) :=
  (s.merge).map (fun p => (containsKey k p.fst, p.snd))

/-! ### Association-list lemmas -/

theorem lookupKey_setEntry_self (k : String) (v : Val) (n : Yaco) :
    lookupKey k (setEntry k v n) = some v := by
  induction n with
  | nil => simp [setEntry, lookupKey]
  | cons e rest ih =>
    obtain ⟨k1, v1⟩ := e
    by_cases h : k1 = k
    · simp [setEntry, h, lookupKey]
    · simp [setEntry, h, lookupKey, ih]

theorem lookupKey_setEntry_ne (k1 k : String) (v : Val) (n : Yaco) (h : k1 ≠ k) :
    lookupKey k1 (setEntry k v n) = lookupKey k1 n := by
  induction n with
  | nil => simp [setEntry, lookupKey, Ne.symm h]
  | cons e rest ih =>
    obtain ⟨k2, v2⟩ := e
    by_cases h2 : k2 = k
    · subst h2
      simp [setEntry, lookupKey, Ne.symm h]
    · simp [setEntry, h2, lookupKey, ih]

theorem lookupKey_eq_none_iff (k : String) (n : Yaco) :
    lookupKey k n = none ↔ ∀ p ∈ n, p.1 ≠ k := by
  induction n with
  | nil => simp [lookupKey]
  | cons e rest ih =>
    obtain ⟨k1, v1⟩ := e
    by_cases h : k1 = k
    · simp [lookupKey, h]
    · simp [lookupKey, h, ih]

/-! ### The value written by one `update` loop iteration -/

/-- The value that one iteration of the `update` loop leaves at its
key, as a function of the old value: a dict deep-merges into a `Yaco`
old value and otherwise becomes a fresh `Yaco`, a list is parsed, and
a scalar is kept (`Yaco.update o d` with `o = []` coincides with
`Yaco.init d`). -/
def updVal (old : Option Val) (v : Val) : Val :=
  match v with
  | .vnode d | .vdict d =>
    match old with
    | some (.vnode o) => .vnode (Yaco.update o d)
    | _ => .vnode (Yaco.init d)
  | .vlist l => .vlist (Yaco.parseList l)
  | _ => v

theorem updateOne_eq (self : Yaco) (k : String) (v : Val) :
    Yaco.updateOne self k v = setEntry k (updVal (lookupKey k self) v) self := by
  have hinit : ∀ d, Yaco.init d = Yaco.update [] d := fun d => by simp [Yaco.init]
  cases v with
  | vnode d =>
    cases h : lookupKey k self with
    | none => simp [Yaco.updateOne, updVal, h]
    | some w =>
      cases w with
      | vnode o => cases o <;> simp [Yaco.updateOne, updVal, h, hinit]
      | vint i => simp [Yaco.updateOne, updVal, h]
      | vstr s => simp [Yaco.updateOne, updVal, h]
      | vbool b => simp [Yaco.updateOne, updVal, h]
      | vdict es => simp [Yaco.updateOne, updVal, h]
      | vlist l => simp [Yaco.updateOne, updVal, h]
  | vdict d =>
    cases h : lookupKey k self with
    | none => simp [Yaco.updateOne, updVal, h]
    | some w =>
      cases w with
      | vnode o => cases o <;> simp [Yaco.updateOne, updVal, h, hinit]
      | vint i => simp [Yaco.updateOne, updVal, h]
      | vstr s => simp [Yaco.updateOne, updVal, h]
      | vbool b => simp [Yaco.updateOne, updVal, h]
      | vdict es => simp [Yaco.updateOne, updVal, h]
      | vlist l => simp [Yaco.updateOne, updVal, h]
  | vlist l => simp [Yaco.updateOne, updVal]
  | vint i => simp [Yaco.updateOne, updVal]
  | vstr s => simp [Yaco.updateOne, updVal]
  | vbool b => simp [Yaco.updateOne, updVal]

theorem lookupKey_update_frame (self data : Yaco) (k : String)
    (h : ∀ p ∈ data, p.1 ≠ k) :
    lookupKey k (Yaco.update self data) = lookupKey k self := by
  induction data generalizing self with
  | nil => simp [Yaco.update]
  | cons e rest ih =>
    obtain ⟨k1, v1⟩ := e
    have hk1 : k1 ≠ k := h (k1, v1) (by simp)
    rw [show Yaco.update self ((k1, v1) :: rest)
          = Yaco.update (Yaco.updateOne self k1 v1) rest from by
        simp [Yaco.update]]
    rw [ih _ (fun p hp => h p (by simp [hp]))]
    rw [updateOne_eq, lookupKey_setEntry_ne _ _ _ _ (Ne.symm hk1)]

theorem lookupKey_update_of_mem (self data : Yaco) (k : String) (v : Val)
    (hnd : (data.map Prod.fst).Nodup) (hv : lookupKey k data = some v) :
    lookupKey k (Yaco.update self data) = some (updVal (lookupKey k self) v) := by
  induction data generalizing self with
  | nil => simp [lookupKey] at hv
  | cons e rest ih =>
    obtain ⟨k1, v1⟩ := e
    rw [show Yaco.update self ((k1, v1) :: rest)
          = Yaco.update (Yaco.updateOne self k1 v1) rest from by
        simp [Yaco.update]]
    by_cases h : k1 = k
    · subst h
      have hv1 : v1 = v := by simpa [lookupKey] using hv
      subst hv1
      have hnd2 : k1 ∉ rest.map Prod.fst := by
        rw [List.map_cons] at hnd
        exact (List.nodup_cons.mp hnd).1
      have hnotin : ∀ p ∈ rest, p.1 ≠ k1 := by
        intro p hp hEq
        exact hnd2 (hEq ▸ (List.mem_map.mpr ⟨p, hp, rfl⟩))
      rw [lookupKey_update_frame _ _ _ hnotin, updateOne_eq, lookupKey_setEntry_self]
    · have hv' : lookupKey k rest = some v := by simpa [lookupKey, h] using hv
      have hnd' : (rest.map Prod.fst).Nodup := by
        rw [List.map_cons] at hnd
        exact (List.nodup_cons.mp hnd).2
      rw [ih _ hnd' hv']
      rw [updateOne_eq, lookupKey_setEntry_ne _ _ _ _ (Ne.symm h)]

theorem lookupKey_update_none (self data : Yaco) (k : String)
    (h1 : lookupKey k self = none) (h2 : lookupKey k data = none) :
    lookupKey k (Yaco.update self data) = none := by
  rw [lookupKey_update_frame self data k ((lookupKey_eq_none_iff k data).mp h2)]
  exact h1

/-! ### The value written by one `soft_update` loop iteration -/

/-- The effect of one iteration of the `soft_update` loop at its key:
`none` means the entry is left untouched (a truthy non-`Yaco` old
value, or a truthy old value faced with a list or scalar), `some w`
means the entry becomes `w` (recursive `soft_update` into a nonempty
`Yaco` old value, otherwise the converted new value when the old one
is absent or falsy). -/
def softVal (old : Option Val) (v : Val) : Option Val :=
  match v with
  | .vnode d | .vdict d =>
    match old with
    | some (.vnode (e :: es)) => some (.vnode (Yaco.soft_update (e :: es) d))
    | some o => if o.truthy then none else some (.vnode (Yaco.init d))
    | none => some (.vnode (Yaco.init d))
  | .vlist l =>
    match old with
    | some o => if o.truthy then none else some (.vlist (Yaco.parseList l))
    | none => some (.vlist (Yaco.parseList l))
  | _ =>
    match old with
    | some o => if o.truthy then none else some v
    | none => some v

theorem softUpdateOne_eq (self : Yaco) (k : String) (v : Val) :
    Yaco.softUpdateOne self k v =
      match softVal (lookupKey k self) v with
      | some w => setEntry k w self
      | none => self := by
  cases v with
  | vnode d =>
    simp only [Yaco.softUpdateOne, softVal]
    cases h : lookupKey k self with
    | none => rfl
    | some w =>
      cases w with
      | vnode o => cases o <;> simp [Val.truthy]
      | vint i => by_cases hi : i = 0 <;> simp [Val.truthy, hi]
      | vstr s => by_cases hs : s = "" <;> simp [Val.truthy, hs]
      | vbool b => cases b <;> simp [Val.truthy]
      | vdict es => cases es <;> simp [Val.truthy]
      | vlist l => cases l <;> simp [Val.truthy]
  | vdict d =>
    simp only [Yaco.softUpdateOne, softVal]
    cases h : lookupKey k self with
    | none => rfl
    | some w =>
      cases w with
      | vnode o => cases o <;> simp [Val.truthy]
      | vint i => by_cases hi : i = 0 <;> simp [Val.truthy, hi]
      | vstr s => by_cases hs : s = "" <;> simp [Val.truthy, hs]
      | vbool b => cases b <;> simp [Val.truthy]
      | vdict es => cases es <;> simp [Val.truthy]
      | vlist l => cases l <;> simp [Val.truthy]
  | vlist l =>
    simp only [Yaco.softUpdateOne, softVal]
    cases h : lookupKey k self with
    | none => rfl
    | some w => by_cases hw : w.truthy <;> simp [hw]
  | vint i =>
    simp only [Yaco.softUpdateOne, softVal]
    cases h : lookupKey k self with
    | none => rfl
    | some w => by_cases hw : w.truthy <;> simp [hw]
  | vstr s =>
    simp only [Yaco.softUpdateOne, softVal]
    cases h : lookupKey k self with
    | none => rfl
    | some w => by_cases hw : w.truthy <;> simp [hw]
  | vbool b =>
    simp only [Yaco.softUpdateOne, softVal]
    cases h : lookupKey k self with
    | none => rfl
    | some w => by_cases hw : w.truthy <;> simp [hw]

theorem lookupKey_soft_update_frame (self data : Yaco) (k : String)
    (h : ∀ p ∈ data, p.1 ≠ k) :
    lookupKey k (Yaco.soft_update self data) = lookupKey k self := by
  induction data generalizing self with
  | nil => simp [Yaco.soft_update]
  | cons e rest ih =>
    obtain ⟨k1, v1⟩ := e
    have hk1 : k1 ≠ k := h (k1, v1) (by simp)
    rw [show Yaco.soft_update self ((k1, v1) :: rest)
          = Yaco.soft_update (Yaco.softUpdateOne self k1 v1) rest from by
        simp [Yaco.soft_update]]
    rw [ih _ (fun p hp => h p (by simp [hp]))]
    rw [softUpdateOne_eq]
    cases softVal (lookupKey k1 self) v1 with
    | none => rfl
    | some w => exact lookupKey_setEntry_ne _ _ _ _ (Ne.symm hk1)

theorem lookupKey_soft_update_of_mem (self data : Yaco) (k : String) (v : Val)
    (hnd : (data.map Prod.fst).Nodup) (hv : lookupKey k data = some v) :
    lookupKey k (Yaco.soft_update self data) =
      match softVal (lookupKey k self) v with
      | some w => some w
      | none => lookupKey k self := by
  induction data generalizing self with
  | nil => simp [lookupKey] at hv
  | cons e rest ih =>
    obtain ⟨k1, v1⟩ := e
    rw [show Yaco.soft_update self ((k1, v1) :: rest)
          = Yaco.soft_update (Yaco.softUpdateOne self k1 v1) rest from by
        simp [Yaco.soft_update]]
    by_cases h : k1 = k
    · subst h
      have hv1 : v1 = v := by simpa [lookupKey] using hv
      subst hv1
      have hnd2 : k1 ∉ rest.map Prod.fst := by
        rw [List.map_cons] at hnd
        exact (List.nodup_cons.mp hnd).1
      have hnotin : ∀ p ∈ rest, p.1 ≠ k1 := by
        intro p hp hEq
        exact hnd2 (hEq ▸ (List.mem_map.mpr ⟨p, hp, rfl⟩))
      rw [lookupKey_soft_update_frame _ _ _ hnotin, softUpdateOne_eq]
      cases softVal (lookupKey k1 self) v1 with
      | none => rfl
      | some w => exact lookupKey_setEntry_self _ _ _
    · have hv' : lookupKey k rest = some v := by simpa [lookupKey, h] using hv
      have hnd' : (rest.map Prod.fst).Nodup := by
        rw [List.map_cons] at hnd
        exact (List.nodup_cons.mp hnd).2
      rw [ih _ hnd' hv']
      rw [softUpdateOne_eq]
      cases softVal (lookupKey k1 self) v1 with
      | none => rfl
      | some w => rw [lookupKey_setEntry_ne _ _ _ _ (Ne.symm h)]

/-! ### Claim theorems -/

/-- A scalar in the sense of the `update` / `soft_update` dispatch:
neither a dict (`Yaco` or plain) nor a list. -/
def isScalarVal : Val → Bool
  | .vint _ => true
  | .vstr _ => true
  | .vbool _ => true
  | _ => false

/-- The conversion `update` / `soft_update` apply to a value of `other`
written into a key with no usable old value: dicts become fresh `Yaco`
objects, lists are `_list_parser`d, scalars are kept. -/
def fillVal : Val → Val
  | .vnode d => .vnode (Yaco.init d)
  | .vdict d => .vnode (Yaco.init d)
  | .vlist l => .vlist (Yaco.parseList l)
  | v => v

/-- C3: `update` is a right-biased deep merge.  For every key of
`other` (a Python dict, hence the `Nodup` key hypothesis): when both
sides are map-like the key holds the recursive merge of the two maps;
a sequence value replaces wholesale after `_list_parser` conversion
(never element-wise merged); any scalar value replaces the old value.
Concretely, `Yaco({a:1}).update({a:2})` gives `a == 2` and
`Yaco({c:{d:3}}).update({c:{e:4}})` leaves both `d` and `e` under
`c`. -/
theorem yaco_update_right_biased :
    (∀ (self data : Yaco) (k : String) (v : Val) (o d : List (String × Val)),
       (data.map Prod.fst).Nodup → lookupKey k data = some v →
       (v = .vnode d ∨ v = .vdict d) → lookupKey k self = some (.vnode o) →
       lookupKey k (Yaco.update self data) = some (.vnode (Yaco.update o d)))
    ∧ (∀ (self data : Yaco) (k : String) (l : List Val),
       (data.map Prod.fst).Nodup → lookupKey k data = some (.vlist l) →
       lookupKey k (Yaco.update self data) = some (.vlist (Yaco.parseList l)))
    ∧ (∀ (self data : Yaco) (k : String) (v : Val),
       (data.map Prod.fst).Nodup → lookupKey k data = some v → isScalarVal v = true →
       lookupKey k (Yaco.update self data) = some v)
    ∧ lookupKey "a" (Yaco.update (Yaco.init [("a", .vint 1)]) [("a", .vint 2)])
        = some (.vint 2)
    ∧ Yaco.update (Yaco.init [("c", .vdict [("d", .vint 3)])]) [("c", .vdict [("e", .vint 4)])]
        = [("c", .vnode [("d", .vint 3), ("e", .vint 4)])] := by
  refine ⟨?_, ?_, ?_, ?_, ?_⟩
  · intro self data k v o d hnd hv hvd hself
    rw [lookupKey_update_of_mem self data k v hnd hv, hself]
    rcases hvd with rfl | rfl <;> simp [updVal]
  · intro self data k l hnd hv
    rw [lookupKey_update_of_mem self data k _ hnd hv]
    simp [updVal]
  · intro self data k v hnd hv hs
    rw [lookupKey_update_of_mem self data k v hnd hv]
    cases v <;> simp_all [isScalarVal, updVal]
  · simp [Yaco.update, Yaco.updateOne, Yaco.init, lookupKey, setEntry]
  · simp [Yaco.update, Yaco.updateOne, Yaco.init, lookupKey, setEntry]

/-- Witness for C3: the map-like conjunct applied at a concrete input. -/
theorem yaco_update_right_biased_witness :
    lookupKey "x" (Yaco.update [("x", Val.vnode [("p", Val.vint 1)])]
        [("x", Val.vdict [("q", Val.vint 2)])])
      = some (.vnode (Yaco.update [("p", Val.vint 1)] [("q", Val.vint 2)])) :=
  yaco_update_right_biased.1
    [("x", Val.vnode [("p", Val.vint 1)])] [("x", Val.vdict [("q", Val.vint 2)])]
    "x" (Val.vdict [("q", Val.vint 2)]) [("p", Val.vint 1)] [("q", Val.vint 2)]
    (by simp) (by simp [lookupKey]) (Or.inr rfl) (by simp [lookupKey])

/-- C4: `soft_update` never overwrites an existing truthy value.  A key
whose old value is truthy and not a `Yaco` keeps its old value no
matter what `other` holds (in particular sequences are never merged
element-wise); a key that is absent or holds a falsy value takes
`other`'s (converted) value; a key where both sides are map-like (the
old `Yaco` being nonempty) recurses with `soft_update`.  Concretely,
`Yaco({a:1}).soft_update({a:2})` gives `a == 1`, and
`Yaco({d:{e:72}}).soft_update({d:{e:73,f:18}})` gives `e == 72`,
`f == 18`. -/
theorem yaco_soft_update_preserves_truthy :
    (∀ (self data : Yaco) (k : String) (w : Val),
       (data.map Prod.fst).Nodup → lookupKey k self = some w → w.truthy = true →
       (∀ o, w ≠ .vnode o) →
       lookupKey k (Yaco.soft_update self data) = some w)
    ∧ (∀ (self data : Yaco) (k : String) (v : Val),
       (data.map Prod.fst).Nodup → lookupKey k data = some v →
       (lookupKey k self = none ∨ ∃ w, lookupKey k self = some w ∧ w.truthy = false) →
       lookupKey k (Yaco.soft_update self data) = some (fillVal v))
    ∧ (∀ (self data : Yaco) (k : String) (v : Val) (o d : List (String × Val)),
       (data.map Prod.fst).Nodup → lookupKey k data = some v →
       (v = .vnode d ∨ v = .vdict d) → lookupKey k self = some (.vnode o) → o ≠ [] →
       lookupKey k (Yaco.soft_update self data) = some (.vnode (Yaco.soft_update o d)))
    ∧ lookupKey "a" (Yaco.soft_update (Yaco.init [("a", .vint 1)]) [("a", .vint 2)])
        = some (.vint 1)
    ∧ Yaco.soft_update (Yaco.init [("d", .vdict [("e", .vint 72)])])
        [("d", .vdict [("e", .vint 73), ("f", .vint 18)])]
        = [("d", .vnode [("e", .vint 72), ("f", .vint 18)])] := by
  refine ⟨?_, ?_, ?_, ?_, ?_⟩
  · intro self data k w hnd hself htr hnn
    cases hv : lookupKey k data with
    | none =>
      rw [lookupKey_soft_update_frame self data k ((lookupKey_eq_none_iff k data).mp hv)]
      exact hself
    | some v =>
      rw [lookupKey_soft_update_of_mem self data k v hnd hv, hself]
      have hs : softVal (some w) v = none := by
        cases v with
        | vnode d =>
          cases w with
          | vnode o => exact absurd rfl (hnn o)
          | vint i => simp [softVal, htr]
          | vstr s => simp [softVal, htr]
          | vbool b => simp [softVal, htr]
          | vdict es => simp [softVal, htr]
          | vlist l => simp [softVal, htr]
        | vdict d =>
          cases w with
          | vnode o => exact absurd rfl (hnn o)
          | vint i => simp [softVal, htr]
          | vstr s => simp [softVal, htr]
          | vbool b => simp [softVal, htr]
          | vdict es => simp [softVal, htr]
          | vlist l => simp [softVal, htr]
        | vlist l => simp [softVal, htr]
        | vint i => simp [softVal, htr]
        | vstr s => simp [softVal, htr]
        | vbool b => simp [softVal, htr]
      rw [hs]
  · intro self data k v hnd hv hold
    rw [lookupKey_soft_update_of_mem self data k v hnd hv]
    rcases hold with hnone | ⟨w, hw, hwf⟩
    · rw [hnone]
      cases v <;> simp [softVal, fillVal]
    · rw [hw]
      have hwn : ∀ e es, w ≠ .vnode (e :: es) := by
        intro e es hEq
        subst hEq
        simp [Val.truthy] at hwf
      cases v with
      | vnode d =>
        cases w with
        | vnode o =>
          cases o with
          | nil => simp [softVal, fillVal, Val.truthy]
          | cons e es => exact absurd rfl (hwn e es)
        | vint i => simp [softVal, fillVal, hwf]
        | vstr s => simp [softVal, fillVal, hwf]
        | vbool b => simp [softVal, fillVal, hwf]
        | vdict es => simp [softVal, fillVal, hwf]
        | vlist l => simp [softVal, fillVal, hwf]
      | vdict d =>
        cases w with
        | vnode o =>
          cases o with
          | nil => simp [softVal, fillVal, Val.truthy]
          | cons e es => exact absurd rfl (hwn e es)
        | vint i => simp [softVal, fillVal, hwf]
        | vstr s => simp [softVal, fillVal, hwf]
        | vbool b => simp [softVal, fillVal, hwf]
        | vdict es => simp [softVal, fillVal, hwf]
        | vlist l => simp [softVal, fillVal, hwf]
      | vlist l => simp [softVal, fillVal, hwf]
      | vint i => simp [softVal, fillVal, hwf]
      | vstr s => simp [softVal, fillVal, hwf]
      | vbool b => simp [softVal, fillVal, hwf]
  · intro self data k v o d hnd hv hvd hself ho
    rw [lookupKey_soft_update_of_mem self data k v hnd hv, hself]
    cases o with
    | nil => exact absurd rfl ho
    | cons e es => rcases hvd with rfl | rfl <;> simp [softVal]
  · simp [Yaco.soft_update, Yaco.softUpdateOne, Yaco.init, Yaco.update, Yaco.updateOne,
      lookupKey, setEntry, Val.truthy]
  · simp [Yaco.soft_update, Yaco.softUpdateOne, Yaco.init, Yaco.update, Yaco.updateOne,
      lookupKey, setEntry, Val.truthy]

/-- Witness for C4: the both-map-like conjunct applied at a concrete
input. -/
theorem yaco_soft_update_preserves_truthy_witness :
    lookupKey "x" (Yaco.soft_update [("x", Val.vnode [("p", Val.vint 1)])]
        [("x", Val.vdict [("p", Val.vint 9), ("q", Val.vint 2)])])
      = some (.vnode (Yaco.soft_update [("p", Val.vint 1)]
          [("p", Val.vint 9), ("q", Val.vint 2)])) :=
  yaco_soft_update_preserves_truthy.2.2.1
    [("x", Val.vnode [("p", Val.vint 1)])]
    [("x", Val.vdict [("p", Val.vint 9), ("q", Val.vint 2)])]
    "x" (Val.vdict [("p", Val.vint 9), ("q", Val.vint 2)])
    [("p", Val.vint 1)] [("p", Val.vint 9), ("q", Val.vint 2)]
    (by simp) (by simp [lookupKey]) (Or.inr rfl) (by simp [lookupKey]) (by simp)

/-- C2 counterexample: the claim quantifies over every absent key and
both access paths, but index access with a dotted key navigates the
path instead of the literal key: reading `n["a.b"]` on an empty node
does return an empty `Yaco` and stores it (at the path `a → b`), yet
`"a.b" in n` is `false` afterwards, because `__contains__` is plain
dict membership on the literal key. -/
theorem yaco_autoviv_dotted_cex :
    Yaco.getitem "a.b" ([] : Yaco)
      = some (Val.vnode [], [("a", Val.vnode [("b", Val.vnode [])])])
    ∧ containsKey "a.b" [("a", Val.vnode [("b", Val.vnode [])])] = false := by
  constructor
  · simp [Yaco.getitem, Yaco.getitemChars, Yaco.getattr, lookupKey, setEntry,
      List.takeWhile, List.dropWhile]
  · simp [containsKey, lookupKey]

/-- C2 (amended): for every node and every absent key that does not
contain the `'.'` path separator, attribute access and index access
agree; the read returns an empty `Yaco`, stores that node under the
key, makes `k in n` true, and a subsequent read returns the identical
stored node with the state unchanged (and neither read raises). -/
theorem yaco_autoviv_persists (n : Yaco) (k : String)
    (hnc : containsKey k n = false) (hnd : k.toList.contains '.' = false) :
    Yaco.getitem k n = some (Yaco.getattr k n)
    ∧ Yaco.getattr k n = (.vnode [], setEntry k (.vnode []) n)
    ∧ containsKey k (setEntry k (.vnode []) n) = true
    ∧ Yaco.getattr k (setEntry k (.vnode []) n)
        = (.vnode [], setEntry k (.vnode []) n) := by
  have hl : lookupKey k n = none := by
    cases h : lookupKey k n with
    | none => rfl
    | some w => rw [containsKey, h] at hnc; simp at hnc
  have hmk : String.mk k.toList = k := rfl
  refine ⟨?_, ?_, ?_, ?_⟩
  · rw [Yaco.getitem, Yaco.getitemChars]
    rw [hnd]
    simp [hmk]
  · simp [Yaco.getattr, hl]
  · simp [containsKey, lookupKey_setEntry_self]
  · simp [Yaco.getattr, lookupKey_setEntry_self]

/-- Witness for the amended C2 at a concrete node and key. -/
theorem yaco_autoviv_persists_witness :
    Yaco.getitem "newkey" [("x", Val.vint 5)]
        = some (Yaco.getattr "newkey" [("x", Val.vint 5)])
    ∧ Yaco.getattr "newkey" [("x", Val.vint 5)]
        = (.vnode [], setEntry "newkey" (.vnode []) [("x", Val.vint 5)])
    ∧ containsKey "newkey" (setEntry "newkey" (.vnode []) [("x", Val.vint 5)]) = true
    ∧ Yaco.getattr "newkey" (setEntry "newkey" (.vnode []) [("x", Val.vint 5)])
        = (.vnode [], setEntry "newkey" (.vnode []) [("x", Val.vint 5)]) :=
  yaco_autoviv_persists [("x", Val.vint 5)] "newkey" (by decide) (by decide)

theorem lookupKey_getDataEntries_none (priv : Val) (es : List (String × Val)) (k : String)
    (h : underscoreKey k = true ∨ memVal k priv = true) :
    lookupKey k (Yaco.getDataEntries priv es) = none := by
  induction es with
  | nil => simp [Yaco.getDataEntries, lookupKey]
  | cons e rest ih =>
    obtain ⟨k1, v1⟩ := e
    by_cases h1 : memVal k1 priv = true
    · rw [show Yaco.getDataEntries priv ((k1, v1) :: rest)
            = Yaco.getDataEntries priv rest from by simp [Yaco.getDataEntries, h1]]
      exact ih
    · by_cases h2 : underscoreKey k1 = true
      · rw [show Yaco.getDataEntries priv ((k1, v1) :: rest)
              = Yaco.getDataEntries priv rest from by simp [Yaco.getDataEntries, h1, h2]]
        exact ih
      · rw [show Yaco.getDataEntries priv ((k1, v1) :: rest)
              = (k1, Yaco.checkData v1) :: Yaco.getDataEntries priv rest from by
            simp [Yaco.getDataEntries, h1, h2]]
        have hk1 : k1 ≠ k := by
          intro hEq
          subst hEq
          rcases h with h | h
          · exact h2 h
          · exact h1 h
        simp [lookupKey, hk1, ih]

mutual

theorem getDataEntries_exported (priv : Val) :
    (es : List (String × Val)) → wfEntries es = true →
    exportedEntries (Yaco.getDataEntries priv es) = true
  | [], _ => by simp [Yaco.getDataEntries, exportedEntries]
  | (k1, v1) :: rest, h => by
    have hparts : wfVal v1 = true ∧ wfEntries rest = true := by
      simp only [wfEntries, Bool.and_eq_true] at h
      exact ⟨h.1.2, h.2⟩
    by_cases h1 : memVal k1 priv = true
    · rw [show Yaco.getDataEntries priv ((k1, v1) :: rest)
            = Yaco.getDataEntries priv rest from by simp [Yaco.getDataEntries, h1]]
      exact getDataEntries_exported priv rest hparts.2
    · by_cases h2 : underscoreKey k1 = true
      · rw [show Yaco.getDataEntries priv ((k1, v1) :: rest)
              = Yaco.getDataEntries priv rest from by simp [Yaco.getDataEntries, h1, h2]]
        exact getDataEntries_exported priv rest hparts.2
      · rw [show Yaco.getDataEntries priv ((k1, v1) :: rest)
              = (k1, Yaco.checkData v1) :: Yaco.getDataEntries priv rest from by
            simp [Yaco.getDataEntries, h1, h2]]
        rw [show exportedEntries ((k1, Yaco.checkData v1) :: Yaco.getDataEntries priv rest)
              = (!(underscoreKey k1) && exportedVal (Yaco.checkData v1)
                  && exportedEntries (Yaco.getDataEntries priv rest)) from by
            simp [exportedEntries]]
        rw [checkData_exported v1 hparts.1,
          getDataEntries_exported priv rest hparts.2]
        simp [h2]
termination_by es => (sizeOf es, 0)

theorem checkData_exported :
    (v : Val) → wfVal v = true → exportedVal (Yaco.checkData v) = true
  | .vnode sub, h => by
    rw [show Yaco.checkData (.vnode sub) = .vdict (Yaco.get_data sub) from by
        simp [Yaco.checkData]]
    rw [show exportedVal (Val.vdict (Yaco.get_data sub))
          = exportedEntries (Yaco.get_data sub) from by simp [exportedVal]]
    rw [show Yaco.get_data sub
          = Yaco.getDataEntries ((lookupKey "_private" sub).getD (.vlist [])) sub from by
        simp [Yaco.get_data]]
    exact getDataEntries_exported _ sub (by simpa [wfVal] using h)
  | .vdict es, h => by simp [wfVal] at h
  | .vlist l, h => by
    rw [show Yaco.checkData (.vlist l) = .vlist (Yaco.checkDataList l) from by
        simp [Yaco.checkData]]
    rw [show exportedVal (Val.vlist (Yaco.checkDataList l))
          = exportedList (Yaco.checkDataList l) from by simp [exportedVal]]
    exact checkDataList_exported l (by simpa [wfVal] using h)
  | .vint i, _ => by simp [Yaco.checkData, exportedVal]
  | .vstr s, _ => by simp [Yaco.checkData, exportedVal]
  | .vbool b, _ => by simp [Yaco.checkData, exportedVal]
termination_by v => (sizeOf v, 1)

theorem checkDataList_exported :
    (l : List Val) → wfList l = true → exportedList (Yaco.checkDataList l) = true
  | [], _ => by simp [Yaco.checkDataList, exportedList]
  | x :: xs, h => by
    have hparts : wfVal x = true ∧ wfList xs = true := by
      simp only [wfList, Bool.and_eq_true] at h
      exact h
    rw [show Yaco.checkDataList (x :: xs)
          = Yaco.checkData x :: Yaco.checkDataList xs from by simp [Yaco.checkDataList]]
    rw [show exportedList (Yaco.checkData x :: Yaco.checkDataList xs)
          = (exportedVal (Yaco.checkData x) && exportedList (Yaco.checkDataList xs)) from by
        simp [exportedList]]
    rw [checkData_exported x hparts.1, checkDataList_exported xs hparts.2]
    rfl
termination_by l => (sizeOf l, 0)

end

/-- C5: `get_data` (the export) omits every key in the node's own
exclusion list (the value stored under `_private`) and every key
beginning with `'_'`, and — on the well-formed states a live `Yaco`
object can have — the exported structure at every depth contains no
`Yaco` values (only scalars, plain dicts and lists) and no
`'_'`-prefixed keys. -/
theorem yaco_get_data_strips_private (self : Yaco) (hwf : wfEntries self = true) :
    (∀ k : String,
       underscoreKey k = true
         ∨ memVal k ((lookupKey "_private" self).getD (.vlist [])) = true →
       lookupKey k (Yaco.get_data self) = none)
    ∧ exportedEntries (Yaco.get_data self) = true := by
  constructor
  · intro k hk
    rw [show Yaco.get_data self
          = Yaco.getDataEntries ((lookupKey "_private" self).getD (.vlist [])) self from by
        simp [Yaco.get_data]]
    exact lookupKey_getDataEntries_none _ self k hk
  · rw [show Yaco.get_data self
          = Yaco.getDataEntries ((lookupKey "_private" self).getD (.vlist [])) self from by
        simp [Yaco.get_data]]
    exact getDataEntries_exported _ self hwf

/-- Witness for C5 on a concrete node with a `'_'`-prefixed key, a
`_private` exclusion list and a nested node. -/
theorem yaco_get_data_strips_private_witness :
    (∀ k : String,
       underscoreKey k = true
         ∨ memVal k ((lookupKey "_private"
             [("a", Val.vint 1), ("_c", Val.vint 3),
              ("_private", Val.vlist [Val.vstr "b"]), ("b", Val.vint 2),
              ("sub", Val.vnode [("_h", Val.vint 9), ("z", Val.vint 4)])]).getD
               (.vlist [])) = true →
       lookupKey k (Yaco.get_data
         [("a", Val.vint 1), ("_c", Val.vint 3),
          ("_private", Val.vlist [Val.vstr "b"]), ("b", Val.vint 2),
          ("sub", Val.vnode [("_h", Val.vint 9), ("z", Val.vint 4)])]) = none)
    ∧ exportedEntries (Yaco.get_data
        [("a", Val.vint 1), ("_c", Val.vint 3),
         ("_private", Val.vlist [Val.vstr "b"]), ("b", Val.vint 2),
         ("sub", Val.vnode [("_h", Val.vint 9), ("z", Val.vint 4)])]) = true :=
  yaco_get_data_strips_private
    [("a", Val.vint 1), ("_c", Val.vint 3),
     ("_private", Val.vlist [Val.vstr "b"]), ("b", Val.vint 2),
     ("sub", Val.vnode [("_h", Val.vint 9), ("z", Val.vint 4)])]
    (by simp [wfEntries, wfVal, wfList])

/-! ### PolyYaco helper lemmas -/

/-- The (locator, layer) pair a resolving source contributes to the
stack, `none` for a skipped source. -/
def Source.resolvesTo : Source → Option (String × Yaco)
  | .pkg n (some d) => some (n, Yaco.init d)
  | .dir n d => some (n, Yaco.init d)
  | .file n d => some (n, Yaco.init d)
  | _ => none

/-- No `pkg://` source of the list fails to resolve (the only kind of
unresolved source `PolyYaco.load` does not skip). -/
def noPkgFailure : List Source → Bool
  | [] => true
  | .pkg _ none :: _ => false
  | _ :: rest => noPkgFailure rest

theorem loadSources_ok (sources : List Source) :
    ∀ (fns : List String) (ycs : List Yaco), noPkgFailure sources = true →
    PolyYaco.loadSources fns ycs sources
      = .ok (fns ++ (sources.filterMap Source.resolvesTo).map Prod.fst,
             ycs ++ (sources.filterMap Source.resolvesTo).map Prod.snd) := by
  induction sources with
  | nil => intro fns ycs _; simp [PolyYaco.loadSources]
  | cons s rest ih =>
    intro fns ycs h
    cases s with
    | pkg n c =>
      cases c with
      | none => simp [noPkgFailure] at h
      | some d =>
        rw [show PolyYaco.loadSources fns ycs (Source.pkg n (some d) :: rest)
              = PolyYaco.loadSources (fns ++ [n]) (ycs ++ [Yaco.init d]) rest from rfl]
        rw [ih _ _ (by simpa [noPkgFailure] using h)]
        simp [Source.resolvesTo]
    | dir n d =>
      rw [show PolyYaco.loadSources fns ycs (Source.dir n d :: rest)
            = PolyYaco.loadSources (fns ++ [n]) (ycs ++ [Yaco.init d]) rest from rfl]
      rw [ih _ _ (by simpa [noPkgFailure] using h)]
      simp [Source.resolvesTo]
    | file n d =>
      rw [show PolyYaco.loadSources fns ycs (Source.file n d :: rest)
            = PolyYaco.loadSources (fns ++ [n]) (ycs ++ [Yaco.init d]) rest from rfl]
      rw [ih _ _ (by simpa [noPkgFailure] using h)]
      simp [Source.resolvesTo]
    | absent n =>
      rw [show PolyYaco.loadSources fns ycs (Source.absent n :: rest)
            = PolyYaco.loadSources fns ycs rest from rfl]
      rw [ih _ _ (by simpa [noPkgFailure] using h)]
      simp [Source.resolvesTo]

theorem noPkgFailure_of_absent (sources : List Source)
    (h : ∀ x ∈ sources, ∃ nm, x = Source.absent nm) : noPkgFailure sources = true := by
  induction sources with
  | nil => rfl
  | cons s rest ih =>
    obtain ⟨nm, rfl⟩ := h s (by simp)
    rw [show noPkgFailure (Source.absent nm :: rest) = noPkgFailure rest from rfl]
    exact ih (fun x hx => h x (by simp [hx]))

theorem filterMap_resolvesTo_absent (sources : List Source)
    (h : ∀ x ∈ sources, ∃ nm, x = Source.absent nm) :
    sources.filterMap Source.resolvesTo = [] := by
  induction sources with
  | nil => rfl
  | cons s rest ih =>
    obtain ⟨nm, rfl⟩ := h s (by simp)
    rw [show (Source.absent nm :: rest).filterMap Source.resolvesTo
          = rest.filterMap Source.resolvesTo from by simp [Source.resolvesTo]]
    exact ih (fun x hx => h x (by simp [hx]))

theorem lookupKey_foldl_update_none (layers : List Yaco) :
    ∀ (acc : Yaco) (k : String), lookupKey k acc = none →
    (∀ y ∈ layers, lookupKey k y = none) →
    lookupKey k (layers.foldl Yaco.update acc) = none := by
  induction layers with
  | nil => intro acc k hacc _; simpa using hacc
  | cons y rest ih =>
    intro acc k hacc hall
    rw [List.foldl_cons]
    exact ih _ _ (lookupKey_update_none acc y k hacc (hall y (by simp)))
      (fun z hz => hall z (by simp [hz]))

/-! ### PolyYaco claim theorems -/

/-- C1: `merge()` folds the layers in ascending precedence with
deep-merge `update` (so the last layer wins on conflicts), and on the
concrete configuration with base `{a:1, b:2}` and one file layer
`{a:18}`, reading the merged view gives `a == 18` (higher layer wins)
and `b == 2` (falls through to the base). -/
theorem polyyaco_merge_precedence :
    (∀ s : PolyYaco, s.dirty = true →
       (PolyYaco.merge s).map Prod.fst = some (s.yacs.foldl Yaco.update []))
    ∧ PolyYaco.load (some [("a", Val.vint 1), ("b", Val.vint 2)])
        [Source.file "f" [("a", Val.vint 18)]]
        = .ok ⟨["_base", "f"],
            [[("a", Val.vint 1), ("b", Val.vint 2)], [("a", Val.vint 18)]], true, none⟩
    ∧ (PolyYaco.get "a" none ⟨["_base", "f"],
          [[("a", Val.vint 1), ("b", Val.vint 2)], [("a", Val.vint 18)]], true, none⟩).map
        Prod.fst = some (some (Val.vint 18))
    ∧ (PolyYaco.get "b" none ⟨["_base", "f"],
          [[("a", Val.vint 1), ("b", Val.vint 2)], [("a", Val.vint 18)]], true, none⟩).map
        Prod.fst = some (some (Val.vint 2)) := by
  refine ⟨?_, ?_, ?_, ?_⟩
  · intro s h
    simp [PolyYaco.merge, h]
  · simp [PolyYaco.load, PolyYaco.loadSources, Yaco.init, Yaco.update, Yaco.updateOne,
      lookupKey, setEntry, Except.map]
  · simp [PolyYaco.get, PolyYaco.getattr, PolyYaco.merge, polyInternalKey, Yaco.getattr,
      Yaco.update, Yaco.updateOne, lookupKey, setEntry]
  · simp [PolyYaco.get, PolyYaco.getattr, PolyYaco.merge, polyInternalKey, Yaco.getattr,
      Yaco.update, Yaco.updateOne, lookupKey, setEntry]

/-- Witness for C1's universally quantified conjunct at a concrete
dirty state. -/
theorem polyyaco_merge_precedence_witness :
    (PolyYaco.merge ⟨["_base"], [[("z", Val.vint 7)]], true, none⟩).map Prod.fst
      = some (([[("z", Val.vint 7)]] : List Yaco).foldl Yaco.update []) :=
  polyyaco_merge_precedence.1 ⟨["_base"], [[("z", Val.vint 7)]], true, none⟩ rfl

/-- C6 counterexample: after a `merge()` the cache is clean; mutating a
layer's `Yaco` directly (here `layer.a = 2` through `Yaco.setattr`,
not through the `PolyYaco` write accessors) does not set the dirty
flag, so the next `merge()` returns the stale cached node with
`a == 1` even though the only layer now holds `a == 2` — `merge()`
does serve a value the layers no longer hold, refuting the claim. -/
theorem polyyaco_merge_stale_cache_cex :
    PolyYaco.load (some [("a", Val.vint 1)]) []
      = .ok ⟨["_base"], [[("a", Val.vint 1)]], true, none⟩
    ∧ PolyYaco.merge ⟨["_base"], [[("a", Val.vint 1)]], true, none⟩
      = some ([("a", Val.vint 1)],
          ⟨["_base"], [[("a", Val.vint 1)]], false, some [("a", Val.vint 1)]⟩)
    ∧ Yaco.setattr "a" (Val.vint 2) [("a", Val.vint 1)] = [("a", Val.vint 2)]
    ∧ PolyYaco.merge ⟨["_base"], [[("a", Val.vint 2)]], false, some [("a", Val.vint 1)]⟩
      = some ([("a", Val.vint 1)],
          ⟨["_base"], [[("a", Val.vint 2)]], false, some [("a", Val.vint 1)]⟩)
    ∧ lookupKey "a" [("a", Val.vint 1)] ≠ some (Val.vint 2) := by
  refine ⟨?_, ?_, ?_, ?_, ?_⟩
  · simp [PolyYaco.load, PolyYaco.loadSources, Yaco.init, Yaco.update, Yaco.updateOne,
      lookupKey, setEntry, Except.map]
  · simp [PolyYaco.merge, Yaco.update, Yaco.updateOne, lookupKey, setEntry]
  · simp [Yaco.setattr, lookupKey, setEntry]
  · simp [PolyYaco.merge]
  · simp [lookupKey]

/-- C6 (amended): `merge()` recomputes from the live layer objects
whenever the dirty flag is set — any direct mutation of the layers
performed while the configuration is dirty is reflected by the next
`merge()`; in the clean state `merge()` returns the cached node, which
can miss direct mutations made since the last recompute. -/
theorem polyyaco_merge_live_when_dirty (s : PolyYaco) (f : List Yaco → List Yaco)
    (h : s.dirty = true) :
    (PolyYaco.merge { s with yacs := f s.yacs }).map Prod.fst
      = some ((f s.yacs).foldl Yaco.update []) := by
  simp [PolyYaco.merge, h]

/-- Witness for the amended C6: a direct layer mutation before the
first merge is reflected by that merge. -/
theorem polyyaco_merge_live_when_dirty_witness :
    (PolyYaco.merge { (⟨["_base"], [[("a", Val.vint 1)]], true, none⟩ : PolyYaco) with
        yacs := ([[("a", Val.vint 1)]] : List Yaco).map (Yaco.setattr "a" (Val.vint 2)) }).map
      Prod.fst
      = some ((([[("a", Val.vint 1)]] : List Yaco).map
          (Yaco.setattr "a" (Val.vint 2))).foldl Yaco.update []) :=
  polyyaco_merge_live_when_dirty ⟨["_base"], [[("a", Val.vint 1)]], true, none⟩
    (fun l => l.map (Yaco.setattr "a" (Val.vint 2))) rfl

/-- C7: when a base was given and no file layer resolved, the top
layer is the reserved `_base` layer and `save()` raises (and persists
nothing — the model returns no written pair); when a writable top
layer exists, `save()` writes exactly that layer's exported node to
that layer's own locator. -/
theorem polyyaco_save_reserved_base :
    (∀ (base : List (String × Val)) (sources : List Source),
       (∀ x ∈ sources, ∃ nm, x = Source.absent nm) →
       PolyYaco.load (some base) sources
           = .ok ⟨["_base"], [Yaco.init base], true, none⟩
         ∧ PolyYaco.save ⟨["_base"], [Yaco.init base], true, none⟩
           = .error SaveError.reservedBase)
    ∧ (∀ (s : PolyYaco) (fn : String) (yc : Yaco),
       s.filenames.getLast? = some fn → s.yacs.getLast? = some yc → fn ≠ "_base" →
       PolyYaco.save s = .ok (fn, Yaco.get_data yc)) := by
  constructor
  · intro base sources habs
    constructor
    · rw [show PolyYaco.load (some base) sources
            = (PolyYaco.loadSources ["_base"] [Yaco.init base] sources).map
                (fun p => ⟨p.fst, p.snd, true, none⟩) from rfl]
      rw [loadSources_ok sources _ _ (noPkgFailure_of_absent sources habs),
        filterMap_resolvesTo_absent sources habs]
      simp [Except.map]
    · simp [PolyYaco.save, List.getLast?]
  · intro s fn yc h1 h2 h3
    simp [PolyYaco.save, h1, h2, h3]

/-- Witness for C7 at concrete configurations: a base-only stack
refuses to save; a one-file stack saves to its own locator. -/
theorem polyyaco_save_reserved_base_witness :
    (PolyYaco.load (some [("a", Val.vint 1)]) [Source.absent "g"]
        = .ok ⟨["_base"], [Yaco.init [("a", Val.vint 1)]], true, none⟩
      ∧ PolyYaco.save ⟨["_base"], [Yaco.init [("a", Val.vint 1)]], true, none⟩
        = .error SaveError.reservedBase)
    ∧ PolyYaco.save ⟨["f"], [[("a", Val.vint 2)]], true, none⟩
      = .ok ("f", Yaco.get_data [("a", Val.vint 2)]) :=
  ⟨polyyaco_save_reserved_base.1 [("a", Val.vint 1)] [Source.absent "g"]
      (by intro x hx; simp at hx; exact ⟨"g", hx⟩),
   polyyaco_save_reserved_base.2 ⟨["f"], [[("a", Val.vint 2)]], true, none⟩
      "f" [("a", Val.vint 2)] rfl rfl (by decide)⟩

/-- C8 counterexample: an unresolvable `pkg://` source is not skipped:
`YacoPkg.__init__` catches the `IOError` and calls `sys.exit(-1)`, so
`load()` aborts the surrounding computation instead of producing a
layer stack. -/
theorem polyyaco_load_pkg_abort_cex :
    PolyYaco.load none [Source.pkg "mypkg" none] = .error LoadError.pkgExit := by
  simp [PolyYaco.load, PolyYaco.loadSources, Except.map]

/-- C8 (amended): `load()` silently skips sources that are neither an
existing file nor an existing directory, producing a layer stack of
exactly the resolving sources in order — but a `pkg://` source whose
bundled resource does not resolve aborts the process (`sys.exit`),
so the non-fatal skipping holds only for the non-`pkg://` kinds. -/
theorem polyyaco_load_skips_unresolved (base : Option (List (String × Val)))
    (sources : List Source) (h : noPkgFailure sources = true) :
    PolyYaco.load base sources
      = .ok ⟨(match base with | some _ => ["_base"] | none => [])
               ++ (sources.filterMap Source.resolvesTo).map Prod.fst,
             (match base with | some b => [Yaco.init b] | none => [])
               ++ (sources.filterMap Source.resolvesTo).map Prod.snd,
             true, none⟩ := by
  cases base with
  | none =>
    rw [show PolyYaco.load none sources
          = (PolyYaco.loadSources [] [] sources).map
              (fun p => ⟨p.fst, p.snd, true, none⟩) from rfl]
    rw [loadSources_ok sources _ _ h]
    simp [Except.map]
  | some b =>
    rw [show PolyYaco.load (some b) sources
          = (PolyYaco.loadSources ["_base"] [Yaco.init b] sources).map
              (fun p => ⟨p.fst, p.snd, true, none⟩) from rfl]
    rw [loadSources_ok sources _ _ h]
    simp [Except.map]

/-- Witness for the amended C8: one resolving file, one missing file
and one missing directory produce a stack with just the resolving
file. -/
theorem polyyaco_load_skips_unresolved_witness :
    PolyYaco.load (some [("a", Val.vint 1)])
        [Source.absent "missing1", Source.file "f" [("b", Val.vint 2)],
         Source.absent "missing2"]
      = .ok ⟨(match some [("a", Val.vint 1)] with
                | some _ => ["_base"] | none => [])
               ++ (([Source.absent "missing1", Source.file "f" [("b", Val.vint 2)],
                     Source.absent "missing2"].filterMap Source.resolvesTo).map Prod.fst),
             (match some [("a", Val.vint 1)] with
                | some b => [Yaco.init b] | none => [])
               ++ (([Source.absent "missing1", Source.file "f" [("b", Val.vint 2)],
                     Source.absent "missing2"].filterMap Source.resolvesTo).map Prod.snd),
             true, none⟩ :=
  polyyaco_load_skips_unresolved (some [("a", Val.vint 1)])
    [Source.absent "missing1", Source.file "f" [("b", Val.vint 2)],
     Source.absent "missing2"] rfl

/-- C9: the merge-cache state machine.  A successful `load()` leaves
the configuration dirty (in particular the initial state after
construction is dirty, forcing the first merge to compute); any write
through the `PolyYaco` leaves it dirty; `merge()` in the dirty state
recomputes the fold of the live layers, caches it and clears the flag;
`merge()` in the clean state returns the cached node and leaves the
state untouched (so the merge is recomputed exactly once per dirty
cycle however many reads follow). -/
theorem polyyaco_merge_cache_state_machine :
    (∀ (base : Option (List (String × Val))) (sources : List Source) (s : PolyYaco),
       PolyYaco.load base sources = .ok s → s.dirty = true)
    ∧ (∀ (k : String) (v : Val) (s s1 : PolyYaco),
       PolyYaco.setattr k v s = some s1 → s1.dirty = true)
    ∧ (∀ s : PolyYaco, s.dirty = true →
       PolyYaco.merge s
         = some (s.yacs.foldl Yaco.update [],
             { s with merged := some (s.yacs.foldl Yaco.update []), dirty := false }))
    ∧ (∀ (s : PolyYaco) (m : Yaco), s.dirty = false → s.merged = some m →
       PolyYaco.merge s = some (m, s)) := by
  refine ⟨?_, ?_, ?_, ?_⟩
  · intro base sources s h
    cases base with
    | none =>
      simp only [PolyYaco.load] at h
      cases hl : PolyYaco.loadSources [] [] sources with
      | error e => rw [hl] at h; simp [Except.map] at h
      | ok p =>
        rw [hl] at h
        simp only [Except.map, Except.ok.injEq] at h
        rw [← h]
    | some b =>
      simp only [PolyYaco.load] at h
      cases hl : PolyYaco.loadSources ["_base"] [Yaco.init b] sources with
      | error e => rw [hl] at h; simp [Except.map] at h
      | ok p =>
        rw [hl] at h
        simp only [Except.map, Except.ok.injEq] at h
        rw [← h]
  · intro k v s s1 h
    unfold PolyYaco.setattr at h
    by_cases hk : polyInternalKey k = true
    · rw [if_pos hk] at h
      simp at h
    · rw [if_neg hk] at h
      cases hl : s.yacs.getLast? with
      | none => rw [hl] at h; simp at h
      | some top =>
        rw [hl] at h
        simp only [Option.some.injEq] at h
        rw [← h]
  · intro s h
    simp [PolyYaco.merge, h]
  · intro s m h1 h2
    simp [PolyYaco.merge, h1, h2]

/-- Witness for C9: each transition of the state machine exercised at
a concrete configuration. -/
theorem polyyaco_merge_cache_state_machine_witness :
    (⟨["_base"], [[("a", Val.vint 1)]], true, none⟩ : PolyYaco).dirty = true
    ∧ ({ (⟨["f"], [[]], true, none⟩ : PolyYaco) with
          dirty := true,
          yacs := ([[]] : List Yaco).dropLast
            ++ [Yaco.setattr "x" (Val.vint 1) []] } : PolyYaco).dirty = true
    ∧ PolyYaco.merge ⟨["f"], [[("a", Val.vint 1)]], true, none⟩
      = some (([[("a", Val.vint 1)]] : List Yaco).foldl Yaco.update [],
          { (⟨["f"], [[("a", Val.vint 1)]], true, none⟩ : PolyYaco) with
            merged := some (([[("a", Val.vint 1)]] : List Yaco).foldl Yaco.update []),
            dirty := false })
    ∧ PolyYaco.merge ⟨["f"], [[("a", Val.vint 1)]], false, some [("a", Val.vint 1)]⟩
      = some ([("a", Val.vint 1)],
          ⟨["f"], [[("a", Val.vint 1)]], false, some [("a", Val.vint 1)]⟩) :=
  ⟨polyyaco_merge_cache_state_machine.1 (some [("a", Val.vint 1)]) []
      ⟨["_base"], [[("a", Val.vint 1)]], true, none⟩
      (by simp [PolyYaco.load, PolyYaco.loadSources, Yaco.init, Yaco.update,
        Yaco.updateOne, lookupKey, setEntry, Except.map]),
   polyyaco_merge_cache_state_machine.2.1 "x" (Val.vint 1) ⟨["f"], [[]], true, none⟩
      _ (by simp [PolyYaco.setattr, polyInternalKey, List.getLast?]),
   polyyaco_merge_cache_state_machine.2.2.1 ⟨["f"], [[("a", Val.vint 1)]], true, none⟩ rfl,
   polyyaco_merge_cache_state_machine.2.2.2 ⟨["f"], [[("a", Val.vint 1)]], false,
      some [("a", Val.vint 1)]⟩ [("a", Val.vint 1)] rfl rfl⟩

/-- C10: reading an absent key through a clean `PolyYaco` whose cache
is the merge of its layers returns an empty node and mutates only the
cached merged view: the layers are untouched, but the key is vivified
into the cache, so — while the cache stays valid — `k in cfg` reports
`true` even though no layer contains `k`, and `cfg.get(k, default)`
still returns `default` because the stored value is an empty node. -/
theorem polyyaco_read_frame_effect (s : PolyYaco) (m : Yaco) (k : String)
    (default : Option Val)
    (hclean : s.dirty = false) (hm : s.merged = some m)
    (hcache : m = s.yacs.foldl Yaco.update [])
    (hk : ∀ y ∈ s.yacs, containsKey k y = false)
    (hpk : polyInternalKey k = false) :
    PolyYaco.getattr k s
        = some (.vnode [], { s with merged := some (setEntry k (.vnode []) m) })
    ∧ ({ s with merged := some (setEntry k (.vnode []) m) } : PolyYaco).yacs = s.yacs
    ∧ PolyYaco.contains k { s with merged := some (setEntry k (.vnode []) m) }
        = some (true, { s with merged := some (setEntry k (.vnode []) m) })
    ∧ PolyYaco.get k default { s with merged := some (setEntry k (.vnode []) m) }
        = some (default, { s with merged := some (setEntry k (.vnode []) m) }) := by
  have hlayers : ∀ y ∈ s.yacs, lookupKey k y = none := by
    intro y hy
    have h := hk y hy
    cases hl : lookupKey k y with
    | none => rfl
    | some w => rw [containsKey, hl] at h; simp at h
  have hmk : lookupKey k m = none := by
    rw [hcache]
    exact lookupKey_foldl_update_none s.yacs [] k (by simp [lookupKey]) hlayers
  refine ⟨?_, rfl, ?_, ?_⟩
  · simp [PolyYaco.getattr, hpk, PolyYaco.merge, hclean, hm, Yaco.getattr, hmk]
  · simp [PolyYaco.contains, PolyYaco.merge, hclean, containsKey, lookupKey_setEntry_self]
  · simp [PolyYaco.get, PolyYaco.getattr, hpk, PolyYaco.merge, hclean, Yaco.getattr,
      lookupKey_setEntry_self]

/-- Witness for C10 at a concrete clean configuration and absent
key. -/
theorem polyyaco_read_frame_effect_witness :
    PolyYaco.getattr "zz" ⟨["f"], [[("a", Val.vint 1)]], false, some [("a", Val.vint 1)]⟩
        = some (.vnode [],
            { (⟨["f"], [[("a", Val.vint 1)]], false, some [("a", Val.vint 1)]⟩ : PolyYaco)
              with merged := some (setEntry "zz" (.vnode []) [("a", Val.vint 1)]) })
    ∧ ({ (⟨["f"], [[("a", Val.vint 1)]], false, some [("a", Val.vint 1)]⟩ : PolyYaco)
          with merged := some (setEntry "zz" (.vnode []) [("a", Val.vint 1)]) }
          : PolyYaco).yacs
        = (⟨["f"], [[("a", Val.vint 1)]], false, some [("a", Val.vint 1)]⟩ : PolyYaco).yacs
    ∧ PolyYaco.contains "zz"
        { (⟨["f"], [[("a", Val.vint 1)]], false, some [("a", Val.vint 1)]⟩ : PolyYaco)
          with merged := some (setEntry "zz" (.vnode []) [("a", Val.vint 1)]) }
        = some (true,
            { (⟨["f"], [[("a", Val.vint 1)]], false, some [("a", Val.vint 1)]⟩ : PolyYaco)
              with merged := some (setEntry "zz" (.vnode []) [("a", Val.vint 1)]) })
    ∧ PolyYaco.get "zz" (some (Val.vint 7))
        { (⟨["f"], [[("a", Val.vint 1)]], false, some [("a", Val.vint 1)]⟩ : PolyYaco)
          with merged := some (setEntry "zz" (.vnode []) [("a", Val.vint 1)]) }
        = some (some (Val.vint 7),
            { (⟨["f"], [[("a", Val.vint 1)]], false, some [("a", Val.vint 1)]⟩ : PolyYaco)
              with merged := some (setEntry "zz" (.vnode []) [("a", Val.vint 1)]) }) :=
  polyyaco_read_frame_effect
    ⟨["f"], [[("a", Val.vint 1)]], false, some [("a", Val.vint 1)]⟩
    [("a", Val.vint 1)] "zz" (some (Val.vint 7)) rfl rfl
    (by simp [Yaco.update, Yaco.updateOne, lookupKey, setEntry])
    (by decide) (by decide)

end YacoSpec
